import Mathlib

/-!
Verification development for the vertically partitioned dataframe
(`secretflow/data/vertical/dataframe.py`).

A `VDataFrame` holds one single-party table per party (an insertion-ordered
mapping, modelled as an association list) together with an `aligned` flag.
The development embeds the column-ownership resolver (`_col_index`), the
partition router (`__part_apply`), the reveal aggregator
(`__concat_reveal_apply`), indexing/assignment (`__getitem__`/`__setitem__`),
`to_csv`, `drop`, `fillna` and `__len__`, and proves the routing, error and
privacy-restriction properties of these operations.

The single-party `Table` and its per-column operations, and the runtime
`reveal` primitive, are external collaborators of the core; they are modelled
from their interface contract (an ordered, named-column table offering
selection, assignment and per-column reductions; an order-preserving batched
declassification).
-/

abbrev Party := String

abbrev ColName := String

/-- A per-column result series (ordered, indexed by column name), the shape of
a per-partition reduction result. -/
abbrev Series := List (ColName × Int)

/-- Modelled from the spec: the external single-party table contract — an
ordered, named-column, row-aligned in-memory table.  `cols` is the ordered
list of named columns with their row data, `nrows` the row count. -/
structure Table where
  cols : List (ColName × List Int)
  nrows : Nat
deriving DecidableEq

namespace Table

/-- The ordered column labels of a table. -/
def columns (t : Table) : List ColName :=
  t.cols.map Prod.fst

/-- Column-name membership test; this is what `key in part.dtypes` checks in
the source (the dtype mapping is keyed by the column names). -/
def hasCol (t : Table) (k : ColName) : Bool :=
  t.columns.contains k

/-- The row data of a named column (empty when absent; callers in the core
only use it on present columns). -/
def getCol (t : Table) (k : ColName) : List Int :=
  match t.cols.find? (fun c => c.1 == k) with
  | some c => c.2
  | none => []

/-- Modelled from the spec: table indexing by an ordered list of column names
(the external Table contract offers indexing by column name(s)); the result
holds exactly the requested columns, in request order. -/
def select (t : Table) (ks : List ColName) : Table :=
  ⟨ks.map (fun k => (k, t.getCol k)), t.nrows⟩

/-- Modelled from the spec: table assignment by column name(s) (the external
Table contract offers assignment by column name(s)); an existing column is
overwritten in place, a new one is appended at the end. -/
def assign (t : Table) (ks : List ColName) (src : Table) : Table :=
  ks.foldl
    (fun acc k =>
      if acc.hasCol k then
        ⟨acc.cols.map (fun c => if c.1 == k then (k, src.getCol k) else c), acc.nrows⟩
      else ⟨acc.cols ++ [(k, src.getCol k)], acc.nrows⟩)
    t

/-- Modelled from the spec: broadcast assignment of one raw value to the named
columns of a table. -/
def assignScalar (t : Table) (ks : List ColName) (x : Int) : Table :=
  ks.foldl
    (fun acc k =>
      if acc.hasCol k then
        ⟨acc.cols.map (fun c => if c.1 == k then (k, List.replicate acc.nrows x) else c),
          acc.nrows⟩
      else ⟨acc.cols ++ [(k, List.replicate acc.nrows x)], acc.nrows⟩)
    t

/-- Modelled from the spec: the external per-partition `sum` reduction over
the row axis — one reduced value per column, in column order. -/
def sumRed (t : Table) : Series :=
  t.cols.map (fun c => (c.1, c.2.foldl (· + ·) 0))

end Table

/-- An opaque per-party runtime object (the value lives at `owner`'s compute
and is not locally visible before a reveal). -/
structure PYUObject (α : Type) where
  owner : Party
  val : α

/-- Modelled from the spec: the runtime primitive
`reveal(sequence of opaque) -> sequence of local values`, assumed synchronous
and order-preserving — it declassifies each opaque value in batch order. -/
def reveal {α : Type} (xs : List (PYUObject α)) : List α :=
  xs.map PYUObject.val

/-- The error kinds surfaced by the core: `NotFoundError`,
`InvalidArgumentError`, python `assert` failures, and a python `KeyError` on a
dict access. -/
inductive DfError where
  | notFound (msg : String)
  | invalidArgument (msg : String)
  | assertion (msg : String)
  | keyError (p : Party)
deriving DecidableEq

/-- First-match lookup in an insertion-ordered association list (a python
dict is iterated in insertion order; with unique keys the first match is the
entry). -/
def assocFind {β : Type} (l : List (String × β)) (k : String) : Option β :=
  (l.find? (fun e => e.1 == k)).map Prod.snd

/-- The federated dataframe: an insertion-ordered mapping from party to that
party's table, plus the alignment flag.  The source constructor defaults
`aligned` to `True`. -/
structure VDataFrame where
  partitions : List (Party × Table)
  aligned : Bool
deriving DecidableEq

/-- The owner of column `k`: the first partition in iteration order whose
table declares `k` (the scan in `_col_index`). -/
def findOwner (ps : List (Party × Table)) (k : ColName) : Option Party :=
  (ps.find? (fun pt => pt.2.hasCol k)).map Prod.fst

/-- One step of the `pyu_col` accumulation in `_col_index`: append `k` to the
owning party's list, inserting the party at the end on first occurrence
(python dict insertion order). -/
def insertColIdx (acc : List (Party × List ColName)) (p : Party) (k : ColName) :
    List (Party × List ColName) :=
  match acc with
  | [] => [(p, [k])]
  | e :: rest => if e.1 = p then (e.1, e.2 ++ [k]) :: rest else e :: insertColIdx rest p k

/-- The request loop of `_col_index`: for each requested name, scan the
partitions in iteration order; the first partition declaring the name owns it
and the name accumulates into that party's list; an unowned name raises
`NotFoundError` at once. -/
def colIndexLoop (parts : List (Party × Table)) :
    List ColName → List (Party × List ColName) →
    Except DfError (List (Party × List ColName))
  | [], acc => .ok acc
  | k :: ks, acc =>
    match findOwner parts k with
    | some p => colIndexLoop parts ks (insertColIdx acc p k)
    | none => .error (.notFound ("Item " ++ k ++ " does not exist."))

namespace VDataFrame

/-- Membership of a party in the partition mapping. -/
def hasParty (df : VDataFrame) (p : Party) : Bool :=
  df.partitions.any (fun pt => pt.1 == p)

/-- The table of party `p`, when `p` is a partition of the dataframe. -/
def tableOf? (df : VDataFrame) (p : Party) : Option Table :=
  assocFind df.partitions p

/-- The table of party `p`, defaulting to the empty table (callers only use
it on parties known to be partitions). -/
def tableOf (df : VDataFrame) (p : Party) : Table :=
  (df.tableOf? p).getD ⟨[], 0⟩

/-- In-place mutation of one party's table (the effect of
`self.partitions[pyu].<op>` on the mapping), in functional form. -/
def updateParty (df : VDataFrame) (p : Party) (f : Table → Table) : VDataFrame :=
  ⟨df.partitions.map (fun pt => if pt.1 == p then (pt.1, f pt.2) else pt), df.aligned⟩

/-- Embeds `VDataFrame._col_index`: an empty request fails the assertion; each
requested name is attributed to the first partition declaring it, names
accumulating per owner in request order; an unowned name fails with
not-found. -/
def _col_index (df : VDataFrame) (cols : List ColName) :
    Except DfError (List (Party × List ColName)) :=
  if cols.isEmpty then .error (.assertion "Column to index is None or empty!")
  else colIndexLoop df.partitions cols []

/-- Embeds `VDataFrame.__getitem__`: resolve the requested names, then build a
new VDataFrame with, per owning party, the requested subset of that party's
table.  The source constructs the result without passing `aligned`, so the
constructor default `True` applies. -/
def getitem (df : VDataFrame) (cols : List ColName) : Except DfError VDataFrame :=
  (df._col_index cols).map
    (fun idx => ⟨idx.map (fun pk => (pk.1, (df.tableOf pk.1).select pk.2)), true⟩)

/-- Embeds `VDataFrame.__part_apply`: apply the table-level operation to every
partition, restricting each result to the input partition's own columns (the
`[part.columns]` selection in the source), keeping the `aligned` flag. -/
def partApply (df : VDataFrame) (op : Table → Table) : VDataFrame :=
  ⟨df.partitions.map (fun pt => (pt.1, (op pt.2).select pt.2.columns)), df.aligned⟩

/-- The batch of opaque per-partition reduction results handed to `reveal` in
`__concat_reveal_apply`, in partition iteration order. -/
def revealBatch (df : VDataFrame) (red : Table → Series) : List (PYUObject Series) :=
  df.partitions.map (fun pt => ⟨pt.1, red pt.2⟩)

/-- Embeds `VDataFrame.__concat_reveal_apply`: reveal the batched opaque
per-partition results in one call and concatenate them in batch order
(`pd.concat` of the revealed series). -/
def concatRevealApply (df : VDataFrame) (red : Table → Series) : Series :=
  (reveal (df.revealBatch red)).flatten

/-- Embeds `VDataFrame.sum` (axis 0): the reveal aggregator applied to the
per-partition `sum` reduction. -/
def sum (df : VDataFrame) : Series :=
  df.concatRevealApply Table.sumRed

end VDataFrame

/-- A single-partition value tagged with its owning party (a `Partition`
being assigned), carrying the device of its backing object. -/
structure PartValue where
  party : Party
  table : Table
deriving DecidableEq

/-- The three shapes a value assigned through `__setitem__` can take: a
single-party partition value, a multi-party VDataFrame, or a raw broadcast
scalar. -/
inductive SetValue where
  | part (pv : PartValue)
  | vdf (v : VDataFrame)
  | scalar (x : Int)
deriving DecidableEq

namespace VDataFrame

/-- Embeds `VDataFrame.__setitem__` on its three branches.  A partition value
must be owned by a party of this dataframe and routes into that party's
table.  A VDataFrame value requires its party set to be a subset of the
target's; the keys are then resolved and each owner's table receives the
value's sub-table — except that a not-found resolution falls back to
inserting, per party of the value, that party's columns as new columns.  A
scalar resolves the keys and broadcasts into each owner's table. -/
def setitem (df : VDataFrame) (keys : List ColName) (value : SetValue) :
    Except DfError VDataFrame :=
  match value with
  | .part pv =>
    if df.hasParty pv.party then
      .ok (df.updateParty pv.party (fun t => t.assign keys pv.table))
    else
      .error (.assertion "Device of the partition to assgin is not in this dataframe devices.")
  | .vdf v =>
    if v.partitions.all (fun pt => df.hasParty pt.1) then
      match df._col_index keys with
      | .ok ki =>
        ki.foldlM
          (fun acc pk =>
            match v.tableOf? pk.1 with
            | some src => .ok (acc.updateParty pk.1 (fun t => t.assign pk.2 src))
            | none => .error (.keyError pk.1))
          df
      | .error (.notFound _) =>
        .ok (v.partitions.foldl
          (fun acc pt => acc.updateParty pt.1 (fun t => t.assign pt.2.columns pt.2))
          df)
      | .error e => .error e
    else
      .error (.assertion "Partitions to assgin is not same with this dataframe partitions.")
  | .scalar x =>
    match df._col_index keys with
    | .ok ki =>
      .ok (ki.foldl (fun acc pk => acc.updateParty pk.1 (fun t => t.assignScalar pk.2 x)) df)
    | .error e => .error e

/-- Embeds `VDataFrame.to_csv`: every addressed party must be a partition of
this dataframe — the check loop runs to completion before the comprehension
that dispatches the per-partition writes, so an unknown party raises
`InvalidArgumentError` with no write dispatched.  The result models the list
of dispatched writes (party, its table, target uri). -/
def to_csv (df : VDataFrame) (fileuris : List (Party × String)) :
    Except DfError (List (Party × Table × String)) :=
  match fileuris.find? (fun du => !df.hasParty du.1) with
  | some du => .error (.invalidArgument ("PYU " ++ du.1 ++ " is not in this dataframe."))
  | none => .ok (fileuris.map (fun du => (du.1, df.tableOf du.1, du.2)))

/-- Embeds `VDataFrame.__len__`: asserts at least one partition, then returns
the maximum row count over all partitions. -/
def len (df : VDataFrame) : Except DfError Nat :=
  if df.partitions.isEmpty then .error (.assertion "No partitions in VDataFrame.")
  else .ok (((df.partitions.map (fun pt => pt.2.nrows)).max?).getD 0)

/-- Embeds `VDataFrame.drop` restricted to the column axis; `tdrop cols t` is
the external table-level drop of columns `cols` from `t` (with `columns=None`
encoded as the empty list, matching the python truthiness test).  With a
non-empty column list, ownership is resolved first and only the owning
parties' tables change; `inplace=True` mutates and returns nothing, otherwise
the mutated copy is returned.  The pair is (post-state, returned value). -/
def drop (df : VDataFrame) (tdrop : List ColName → Table → Table)
    (columns : List ColName) (inplace : Bool) :
    Except DfError (VDataFrame × Option VDataFrame) :=
  if columns ≠ [] then
    match df._col_index columns with
    | .ok ci =>
      if inplace then
        .ok (ci.foldl (fun acc pk => acc.updateParty pk.1 (tdrop pk.2)) df, none)
      else
        .ok (df, some (ci.foldl (fun acc pk => acc.updateParty pk.1 (tdrop pk.2)) df))
    | .error e => .error e
  else
    if inplace then
      .ok (⟨df.partitions.map (fun pt => (pt.1, tdrop [] pt.2)), df.aligned⟩, none)
    else
      .ok (df, some (df.partApply (tdrop [])))

/-- Embeds `VDataFrame.fillna`; `tfill t` is the external table-level fill.
With `inplace=True` every partition's table is mutated and the source then
executes `return self`; otherwise the partition router builds a new
dataframe.  The pair is (post-state, returned value). -/
def fillna (df : VDataFrame) (tfill : Table → Table) (inplace : Bool) :
    VDataFrame × Option VDataFrame :=
  if inplace then
    let mutated : VDataFrame := ⟨df.partitions.map (fun pt => (pt.1, tfill pt.2)), df.aligned⟩
    (mutated, some mutated)
  else
    (df, some (df.partApply tfill))

/-- The single unpartitioned table formed by joining all partitions' columns
in partition iteration order (the spec's reference table for the refinement
statement about aggregates). -/
def joined (df : VDataFrame) : Table :=
  ⟨(df.partitions.map (fun pt => pt.2.cols)).flatten,
    ((df.partitions.map (fun pt => pt.2.nrows)).max?).getD 0⟩

/-- Defined from the spec's words: the result an unpartitioned table would
have produced for the `sum` aggregate — the reduction applied directly to the
joined table. -/
def unpartitionedSum (df : VDataFrame) : Series :=
  df.joined.sumRed

end VDataFrame

/-- Accumulation of an optional existing per-party list with further resolved
names (specification device for the `_col_index` loop invariant). -/
def mergeOpt (o : Option (List ColName)) (l : List ColName) : Option (List ColName) :=
  if l.isEmpty then o else some (o.getD [] ++ l)

/-- Party alice's sample table: columns x and y over three rows. -/
def tAlice : Table := ⟨[("x", [1, 2, 3]), ("y", [4, 5, 6])], 3⟩

/-- Party bob's sample table: column z over three rows. -/
def tBob : Table := ⟨[("z", [7, 8, 9])], 3⟩

/-- A two-party vertically partitioned sample dataframe. -/
def dfAB : VDataFrame := ⟨[("alice", tAlice), ("bob", tBob)], true⟩

/-- The sample dataframe with the aligned flag cleared. -/
def dfABUnaligned : VDataFrame := ⟨[("alice", tAlice), ("bob", tBob)], false⟩

/-- An unaligned dataframe whose partitions have row counts 100 and 130. -/
def dfRows : VDataFrame :=
  ⟨[("alice", ⟨[("x", [])], 100⟩), ("bob", ⟨[("z", [])], 130⟩)], false⟩

/-- A single-party dataframe owned by carol (a stranger to `dfAB`). -/
def dfCarolValue : VDataFrame := ⟨[("carol", ⟨[("w", [1])], 1⟩)], true⟩

/-- An assigned value introducing the new column w under party alice. -/
def dfNewW : VDataFrame := ⟨[("alice", ⟨[("w", [7, 7, 7])], 3⟩)], true⟩

/-- A table operation that manufactures an extra column, to exercise the
router's column restriction. -/
def opAddLeak : Table → Table :=
  fun t => ⟨t.cols ++ [("leak", [0, 0, 0])], t.nrows⟩

/-- The expected selection of column z out of the sample dataframe: only
bob's partition, restricted to z, aligned by constructor default. -/
def selZ : VDataFrame := ⟨[("bob", ⟨[("z", [7, 8, 9])], 3⟩)], true⟩

theorem assocFind_nil {β : Type} (k : String) : assocFind ([] : List (String × β)) k = none := rfl

theorem assocFind_cons {β : Type} (e : String × β) (l : List (String × β)) (k : String) :
    assocFind (e :: l) k = if e.1 = k then some e.2 else assocFind l k := by
  by_cases h : e.1 = k
  · simp [assocFind, List.find?_cons_of_pos, h]
  · simp [assocFind, List.find?_cons_of_neg, h]

theorem assocFind_some_mem {β : Type} {l : List (String × β)} {k : String} {b : β}
    (h : assocFind l k = some b) : (k, b) ∈ l := by
  unfold assocFind at h
  cases hf : l.find? (fun e => e.1 == k) with
  | none => simp [hf] at h
  | some e =>
    rw [hf] at h
    have hb : e.2 = b := Option.some.inj h
    have hp : e.1 = k := by simpa using List.find?_some hf
    have hm := List.mem_of_find?_eq_some hf
    obtain ⟨e1, e2⟩ := e
    cases hb
    cases hp
    exact hm

theorem assocFind_mem_nodup {β : Type} {l : List (String × β)} {k : String} {b : β}
    (hnd : (l.map Prod.fst).Nodup) (hmem : (k, b) ∈ l) : assocFind l k = some b := by
  induction l with
  | nil => simp at hmem
  | cons e rest ih =>
    simp only [List.map_cons, List.nodup_cons] at hnd
    rcases List.mem_cons.mp hmem with h | h
    · subst h
      rw [assocFind_cons]
      simp
    · rw [assocFind_cons]
      have hk : e.1 ≠ k := by
        intro he
        exact hnd.1 (he ▸ List.mem_map.mpr ⟨(k, b), h, rfl⟩)
      rw [if_neg hk]
      exact ih hnd.2 h

theorem assocFind_eq_none {β : Type} {l : List (String × β)} {k : String} :
    assocFind l k = none ↔ ∀ b, (k, b) ∉ l := by
  constructor
  · intro h b hb
    induction l with
    | nil => simp at hb
    | cons e rest ih =>
      rw [assocFind_cons] at h
      rcases List.mem_cons.mp hb with h1 | h1
      · subst h1
        simp at h
      · by_cases he : e.1 = k
        · simp [he] at h
        · exact ih (by simpa [he] using h) h1
  · intro h
    cases hf : assocFind l k with
    | none => rfl
    | some b => exact absurd (assocFind_some_mem hf) (h b)

theorem assocFind_insertColIdx_self (acc : List (Party × List ColName)) (p : Party)
    (k : ColName) :
    assocFind (insertColIdx acc p k) p = some ((assocFind acc p).getD [] ++ [k]) := by
  induction acc with
  | nil => simp [insertColIdx, assocFind_cons, assocFind_nil]
  | cons e rest ih =>
    by_cases he : e.1 = p
    · simp [insertColIdx, he, assocFind_cons]
    · simp [insertColIdx, he, assocFind_cons, ih]

theorem assocFind_insertColIdx_ne (acc : List (Party × List ColName)) (p q : Party)
    (k : ColName) (hpq : q ≠ p) :
    assocFind (insertColIdx acc p k) q = assocFind acc q := by
  induction acc with
  | nil => simp [insertColIdx, assocFind_cons, assocFind_nil, Ne.symm hpq]
  | cons e rest ih =>
    by_cases he : e.1 = p
    · simp [insertColIdx, he, assocFind_cons, Ne.symm hpq, hpq]
    · simp [insertColIdx, he, assocFind_cons, ih]

theorem insertColIdx_keys (acc : List (Party × List ColName)) (p : Party) (k : ColName) :
    (insertColIdx acc p k).map Prod.fst =
      if p ∈ acc.map Prod.fst then acc.map Prod.fst else acc.map Prod.fst ++ [p] := by
  induction acc with
  | nil => simp [insertColIdx]
  | cons e rest ih =>
    by_cases he : e.1 = p
    · simp [insertColIdx, he]
    · have hne : p ≠ e.1 := fun h => he h.symm
      by_cases hm : p ∈ rest.map Prod.fst
      · simp [insertColIdx, he, ih, hm, hne]
      · simp [insertColIdx, he, ih, hm, hne]

theorem insertColIdx_keys_nodup {acc : List (Party × List ColName)} {p : Party}
    {k : ColName} (hnd : (acc.map Prod.fst).Nodup) :
    ((insertColIdx acc p k).map Prod.fst).Nodup := by
  rw [insertColIdx_keys]
  by_cases hm : p ∈ acc.map Prod.fst
  · simpa [hm] using hnd
  · rw [if_neg hm]
    simpa using List.Nodup.append hnd (List.nodup_singleton p)
      (by simpa [List.disjoint_singleton] using hm)

theorem mergeOpt_nil (o : Option (List ColName)) : mergeOpt o [] = o := rfl

theorem mergeOpt_cons (o : Option (List ColName)) (k : ColName) (l : List ColName) :
    mergeOpt o (k :: l) = some (o.getD [] ++ k :: l) := by
  simp [mergeOpt]

theorem mergeOpt_snoc_some (xs : List ColName) (k : ColName) (l : List ColName) :
    mergeOpt (some (xs ++ [k])) l = some (xs ++ k :: l) := by
  cases l with
  | nil => simp [mergeOpt]
  | cons a as => simp [mergeOpt]

theorem colIndexLoop_ok_assocFind (parts : List (Party × Table)) :
    ∀ (cols : List ColName) (acc res : List (Party × List ColName)),
      colIndexLoop parts cols acc = .ok res →
      ∀ p, assocFind res p =
        mergeOpt (assocFind acc p)
          (cols.filter (fun k => decide (findOwner parts k = some p)))
  | [], acc, res, h, p => by
    simp only [colIndexLoop] at h
    cases h
    simp [mergeOpt_nil]
  | k :: ks, acc, res, h, p => by
    simp only [colIndexLoop] at h
    cases howner : findOwner parts k with
    | none => rw [howner] at h; cases h
    | some q =>
      rw [howner] at h
      have ih := colIndexLoop_ok_assocFind parts ks (insertColIdx acc q k) res h p
      by_cases hpq : p = q
      · subst hpq
        rw [List.filter_cons]
        simp only [howner, decide_eq_true_eq, if_true, eq_self_iff_true]
        rw [ih, assocFind_insertColIdx_self, mergeOpt_snoc_some, mergeOpt_cons]
      · rw [List.filter_cons]
        have : ¬ (findOwner parts k = some p) := by
          rw [howner]
          exact fun hc => hpq (Option.some.inj hc).symm
        simp only [decide_eq_false this, if_neg Bool.false_ne_true]
        rw [ih, assocFind_insertColIdx_ne _ _ _ _ hpq]

theorem colIndexLoop_ok_of_found (parts : List (Party × Table)) :
    ∀ (cols : List ColName) (acc : List (Party × List ColName)),
      (∀ k ∈ cols, (findOwner parts k).isSome) →
      ∃ res, colIndexLoop parts cols acc = .ok res
  | [], acc, _ => ⟨acc, rfl⟩
  | k :: ks, acc, hall => by
    cases howner : findOwner parts k with
    | none =>
      have := hall k (List.mem_cons_self k ks)
      rw [howner] at this
      simp at this
    | some q =>
      obtain ⟨res, hres⟩ :=
        colIndexLoop_ok_of_found parts ks (insertColIdx acc q k)
          (fun x hx => hall x (List.mem_cons_of_mem _ hx))
      exact ⟨res, by simp only [colIndexLoop, howner]; exact hres⟩

theorem colIndexLoop_error_of_missing (parts : List (Party × Table)) :
    ∀ (cols : List ColName) (acc : List (Party × List ColName)),
      (∃ k ∈ cols, findOwner parts k = none) →
      ∃ k ∈ cols, findOwner parts k = none ∧
        colIndexLoop parts cols acc =
          .error (.notFound ("Item " ++ k ++ " does not exist."))
  | [], _, hex => by simp at hex
  | k :: ks, acc, hex => by
    cases howner : findOwner parts k with
    | none =>
      exact ⟨k, List.mem_cons_self k ks, howner, by simp only [colIndexLoop, howner]⟩
    | some q =>
      have hex' : ∃ x ∈ ks, findOwner parts x = none := by
        obtain ⟨x, hx, hxo⟩ := hex
        rcases List.mem_cons.mp hx with rfl | hx'
        · rw [howner] at hxo; cases hxo
        · exact ⟨x, hx', hxo⟩
      obtain ⟨x, hx, hxo, hloop⟩ :=
        colIndexLoop_error_of_missing parts ks (insertColIdx acc q k) hex'
      exact ⟨x, List.mem_cons_of_mem _ hx, hxo, by simp only [colIndexLoop, howner]; exact hloop⟩

theorem colIndexLoop_keys_nodup (parts : List (Party × Table)) :
    ∀ (cols : List ColName) (acc res : List (Party × List ColName)),
      (acc.map Prod.fst).Nodup →
      colIndexLoop parts cols acc = .ok res →
      (res.map Prod.fst).Nodup
  | [], acc, res, hnd, h => by
    simp only [colIndexLoop] at h
    cases h
    exact hnd
  | k :: ks, acc, res, hnd, h => by
    simp only [colIndexLoop] at h
    cases howner : findOwner parts k with
    | none => rw [howner] at h; cases h
    | some q =>
      rw [howner] at h
      exact colIndexLoop_keys_nodup parts ks _ res (insertColIdx_keys_nodup hnd) h

theorem findOwner_eq_some_iff (ps : List (Party × Table)) (k : ColName) (p : Party) :
    findOwner ps k = some p ↔
      ∃ l₁ t l₂, ps = l₁ ++ (p, t) :: l₂ ∧ t.hasCol k = true ∧
        ∀ e ∈ l₁, e.2.hasCol k = false := by
  induction ps with
  | nil =>
    simp only [findOwner, List.find?_nil, Option.map_none']
    constructor
    · intro h; cases h
    · rintro ⟨l₁, t, l₂, habs, -, -⟩
      exact absurd habs (List.append_ne_nil_of_right_ne_nil _ (List.cons_ne_nil _ _)).symm
  | cons e rest ih =>
    cases he : e.2.hasCol k with
    | true =>
      have hfind : findOwner (e :: rest) k = some e.1 := by
        simp [findOwner, List.find?_cons_of_pos, he]
      rw [hfind]
      constructor
      · intro h
        cases Option.some.inj h
        exact ⟨[], e.2, rest, by simp, he, by simp⟩
      · rintro ⟨l₁, t, l₂, hps, ht, hnone⟩
        cases l₁ with
        | nil =>
          simp only [List.nil_append, List.cons.injEq] at hps
          rw [hps.1]
        | cons a l₁' =>
          simp only [List.cons_append, List.cons.injEq] at hps
          have := hnone a (List.mem_cons_self a l₁')
          rw [← hps.1] at this
          rw [he] at this
          cases this
    | false =>
      have hfind : findOwner (e :: rest) k = findOwner rest k := by
        simp [findOwner, List.find?_cons_of_neg, he]
      rw [hfind, ih]
      constructor
      · rintro ⟨l₁, t, l₂, hps, ht, hnone⟩
        refine ⟨e :: l₁, t, l₂, by rw [hps]; simp, ht, ?_⟩
        intro x hx
        rcases List.mem_cons.mp hx with rfl | hx'
        · exact he
        · exact hnone x hx'
      · rintro ⟨l₁, t, l₂, hps, ht, hnone⟩
        cases l₁ with
        | nil =>
          simp only [List.nil_append, List.cons.injEq] at hps
          have : e.2.hasCol k = true := by rw [hps.1]; exact ht
          rw [he] at this
          cases this
        | cons a l₁' =>
          simp only [List.cons_append, List.cons.injEq] at hps
          refine ⟨l₁', t, l₂, hps.2, ht, ?_⟩
          intro x hx
          exact hnone x (List.mem_cons_of_mem _ hx)

theorem assocFind_updList (l : List (Party × Table)) (p q : Party) (f : Table → Table) :
    assocFind (l.map (fun pt => if pt.1 == p then (pt.1, f pt.2) else pt)) q =
      if q = p then (assocFind l q).map f else assocFind l q := by
  induction l with
  | nil => by_cases h : q = p <;> simp [assocFind_nil, h]
  | cons e rest ih =>
    by_cases hep : e.1 = p
    · by_cases heq : e.1 = q
      · have hqp : q = p := heq ▸ hep
        simp [assocFind_cons, hep, heq, hqp]
      · have hqp : q ≠ p := fun h => heq (hep.trans h.symm)
        simpa [assocFind_cons, hep, hqp, Ne.symm hqp] using ih
    · by_cases heq : e.1 = q
      · have hqp : q ≠ p := fun h => hep (heq.trans h)
        simp [assocFind_cons, hep, heq, hqp, Ne.symm hqp]
      · simpa [assocFind_cons, hep, heq] using ih

theorem tableOf?_updateParty (df : VDataFrame) (p q : Party) (f : Table → Table) :
    (df.updateParty p f).tableOf? q =
      if q = p then (df.tableOf? q).map f else df.tableOf? q := by
  simp only [VDataFrame.tableOf?, VDataFrame.updateParty]
  exact assocFind_updList df.partitions p q f

theorem updateParty_partitions_fst (df : VDataFrame) (p : Party) (f : Table → Table) :
    (df.updateParty p f).partitions.map Prod.fst = df.partitions.map Prod.fst := by
  simp only [VDataFrame.updateParty]
  rw [List.map_map]
  apply List.map_congr_left
  intro a _
  by_cases h : a.1 = p <;> simp [h]

theorem updateParty_aligned (df : VDataFrame) (p : Party) (f : Table → Table) :
    (df.updateParty p f).aligned = df.aligned := rfl

theorem foldl_updateParty_fst {σ : Type} (pf : σ → Party) (tf : σ → Table → Table) :
    ∀ (ps : List σ) (df : VDataFrame),
      ((ps.foldl (fun acc s => acc.updateParty (pf s) (tf s)) df).partitions.map Prod.fst) =
        df.partitions.map Prod.fst
  | [], _ => rfl
  | s :: rest, df => by
    rw [List.foldl_cons, foldl_updateParty_fst pf tf rest _]
    exact updateParty_partitions_fst df (pf s) (tf s)

theorem foldl_updateParty_aligned {σ : Type} (pf : σ → Party) (tf : σ → Table → Table) :
    ∀ (ps : List σ) (df : VDataFrame),
      (ps.foldl (fun acc s => acc.updateParty (pf s) (tf s)) df).aligned = df.aligned
  | [], _ => rfl
  | s :: rest, df => by
    rw [List.foldl_cons, foldl_updateParty_aligned pf tf rest _]
    rfl

theorem foldl_updateParty_tableOf_not_mem {σ : Type} (pf : σ → Party)
    (tf : σ → Table → Table) :
    ∀ (ps : List σ) (df : VDataFrame) (q : Party), (∀ s ∈ ps, pf s ≠ q) →
      (ps.foldl (fun acc s => acc.updateParty (pf s) (tf s)) df).tableOf? q = df.tableOf? q
  | [], _, _, _ => rfl
  | s :: rest, df, q, h => by
    rw [List.foldl_cons,
      foldl_updateParty_tableOf_not_mem pf tf rest _ q
        (fun x hx => h x (List.mem_cons_of_mem _ hx)),
      tableOf?_updateParty,
      if_neg (fun hq : q = pf s => h s (List.mem_cons_self s rest) hq.symm)]

theorem foldl_updateParty_tableOf_mem {σ : Type} (pf : σ → Party)
    (tf : σ → Table → Table) :
    ∀ (ps : List σ) (df : VDataFrame) (s : σ), s ∈ ps → (ps.map pf).Nodup →
      (ps.foldl (fun acc x => acc.updateParty (pf x) (tf x)) df).tableOf? (pf s) =
        (df.tableOf? (pf s)).map (tf s)
  | [], _, s, hs, _ => absurd hs (List.not_mem_nil s)
  | a :: rest, df, s, hs, hnd => by
    rw [List.foldl_cons]
    simp only [List.map_cons, List.nodup_cons] at hnd
    rcases List.mem_cons.mp hs with rfl | hmem
    · have hnot : ∀ x ∈ rest, pf x ≠ pf s := by
        intro x hx he
        exact hnd.1 (he ▸ List.mem_map.mpr ⟨x, hx, rfl⟩)
      rw [foldl_updateParty_tableOf_not_mem pf tf rest _ (pf s) hnot,
        tableOf?_updateParty, if_pos rfl]
    · have hne : pf s ≠ pf a := by
        intro he
        exact hnd.1 (he ▸ List.mem_map.mpr ⟨s, hmem, rfl⟩)
      rw [foldl_updateParty_tableOf_mem pf tf rest _ s hmem hnd.2,
        tableOf?_updateParty, if_neg hne]

theorem Table.columns_select (t : Table) (ks : List ColName) :
    (t.select ks).columns = ks := by
  simp [Table.select, Table.columns, List.map_map, Function.comp_def]

theorem mergeOpt_none_eq_some {l : List ColName} {ks : List ColName}
    (h : mergeOpt none l = some ks) : l = ks := by
  cases l with
  | nil => cases h
  | cons a as => simpa using Option.some.inj (by simpa [mergeOpt_cons] using h)

/-- C2: every operation routed through the partition router yields a new
VDataFrame with the same parties in the same order, the same aligned flag,
and each resulting partition's table carrying exactly the column set the
corresponding input partition already owned (the router's own-columns
restriction). -/
theorem partApply_preserves_parties_columns_aligned (df : VDataFrame)
    (op : Table → Table)
    (hpres : ∀ pt ∈ df.partitions, ∀ c ∈ pt.2.columns, (op pt.2).hasCol c = true) :
    (df.partApply op).aligned = df.aligned ∧
    (df.partApply op).partitions.map Prod.fst = df.partitions.map Prod.fst ∧
    (df.partApply op).partitions.map (fun pt => pt.2.columns) =
      df.partitions.map (fun pt => pt.2.columns) := by
  refine ⟨rfl, ?_, ?_⟩
  · simp [VDataFrame.partApply, List.map_map, Function.comp]
  · simp [VDataFrame.partApply, List.map_map, Function.comp, Table.columns_select]

/-- Witness for C2 at the sample dataframe with an operation that
manufactures an extra column: the router still returns the input column
sets, parties and aligned flag. -/
theorem partApply_preserves_parties_columns_aligned_witness :
    (∀ pt ∈ dfAB.partitions, ∀ c ∈ pt.2.columns, (opAddLeak pt.2).hasCol c = true) ∧
    ((dfAB.partApply opAddLeak).aligned = dfAB.aligned ∧
      (dfAB.partApply opAddLeak).partitions.map Prod.fst =
        dfAB.partitions.map Prod.fst ∧
      (dfAB.partApply opAddLeak).partitions.map (fun pt => pt.2.columns) =
        dfAB.partitions.map (fun pt => pt.2.columns)) :=
  ⟨by decide, partApply_preserves_parties_columns_aligned dfAB opAddLeak (by decide)⟩

/-- C3: the reveal aggregator computes one opaque partial result per
partition, the batch handed to the single reveal call is in partition
iteration order (owners and payloads alike), and the final result is the
concatenation of the revealed per-partition results in that order,
preserving each partition's own result order. -/
theorem concatRevealApply_batch_order_concat (df : VDataFrame) (red : Table → Series) :
    (df.revealBatch red).map PYUObject.owner = df.partitions.map Prod.fst ∧
    reveal (df.revealBatch red) = df.partitions.map (fun pt => red pt.2) ∧
    df.concatRevealApply red = (df.partitions.map (fun pt => red pt.2)).flatten := by
  refine ⟨?_, ?_, ?_⟩ <;>
    simp [VDataFrame.revealBatch, reveal, VDataFrame.concatRevealApply,
      List.map_map, Function.comp_def]

/-- C8: the source of `fillna` with `inplace=True` executes `return self` —
the mutated dataframe itself — and never returns nothing, contradicting the
in-place contract (and `fillna`'s own docstring, which promises None when
`inplace=True`). -/
theorem fillna_inplace_returns_self_not_none :
    (∀ (df : VDataFrame) (tfill : Table → Table),
      (df.fillna tfill true).2 = some (df.fillna tfill true).1) ∧
    (dfAB.fillna (fun t => t) true).2 ≠ none := by
  constructor
  · intro df tfill
    rfl
  · simp [VDataFrame.fillna]

/-- C9: with at least one partition, `__len__` returns a row count that
bounds every partition's row count from above and is attained by some
partition — the maximum, not the minimum and not the first partition's
count. -/
theorem len_eq_max_rows (df : VDataFrame) (h : df.partitions ≠ []) :
    ∃ n, df.len = .ok n ∧ (∀ pt ∈ df.partitions, pt.2.nrows ≤ n) ∧
      ∃ pt ∈ df.partitions, pt.2.nrows = n := by
  have hne : ¬ df.partitions.isEmpty := by simpa [List.isEmpty_iff] using h
  have hlne : df.partitions.map (fun pt => pt.2.nrows) ≠ [] := by
    simpa using h
  cases hmax : (df.partitions.map (fun pt => pt.2.nrows)).max? with
  | none => exact absurd (List.max?_eq_none_iff.mp hmax) hlne
  | some m =>
    refine ⟨m, ?_, ?_, ?_⟩
    · unfold VDataFrame.len
      rw [if_neg hne, hmax]
      rfl
    · intro pt hpt
      have hub := (List.max?_le_iff (fun _ _ _ => Nat.max_le) hmax).mp (Nat.le_refl m)
      exact hub _ (List.mem_map.mpr ⟨pt, hpt, rfl⟩)
    · have hmem := List.max?_mem max_choice hmax
      obtain ⟨pt, hpt, hval⟩ := List.mem_map.mp hmem
      exact ⟨pt, hpt, hval⟩

/-- Witness for C9 on partition row counts [100, 130] with aligned set to
False: the length is 130 (the maximum), not 100. -/
theorem len_eq_max_rows_witness :
    dfRows.partitions ≠ [] ∧
    (∃ n, dfRows.len = .ok n ∧ (∀ pt ∈ dfRows.partitions, pt.2.nrows ≤ n) ∧
      ∃ pt ∈ dfRows.partitions, pt.2.nrows = n) ∧
    dfRows.len = .ok 130 ∧ dfRows.len ≠ .ok 100 ∧ dfRows.aligned = false :=
  ⟨by decide, len_eq_max_rows dfRows (by decide), rfl,
    fun hc => by
      rw [show dfRows.len = Except.ok 130 from rfl] at hc
      exact absurd (Except.ok.inj hc) (by decide),
    rfl⟩

/-- C10: a dataframe produced by `__getitem__` always carries
`aligned = True` (the constructor default, since `__getitem__` does not pass
the flag), whereas the partition router propagates the input's flag. -/
theorem getitem_aligned_true (df : VDataFrame) (cols : List ColName) (r : VDataFrame)
    (h : df.getitem cols = .ok r) :
    r.aligned = true ∧
    ∀ (df2 : VDataFrame) (op : Table → Table),
      (df2.partApply op).aligned = df2.aligned := by
  constructor
  · unfold VDataFrame.getitem at h
    cases hci : df._col_index cols with
    | ok idx =>
      rw [hci] at h
      cases h
      rfl
    | error e =>
      rw [hci] at h
      exact absurd h (by simp [Except.map])
  · intro df2 op
    rfl

/-- Witness for C10: selecting column z from the unaligned sample dataframe
yields a dataframe whose aligned flag is True. -/
theorem getitem_aligned_true_witness :
    dfABUnaligned.getitem ["z"] = .ok selZ ∧
    (selZ.aligned = true ∧
      ∀ (df2 : VDataFrame) (op : Table → Table),
        (df2.partApply op).aligned = df2.aligned) :=
  ⟨rfl, getitem_aligned_true dfABUnaligned ["z"] selZ rfl⟩

/-- C1: when the requested names all resolve, `__getitem__` succeeds with a
dataframe whose partition mapping contains exactly the owning parties of the
requested names, each partition's table carrying exactly the requested subset
of that party's columns (in request order); a party owning none of the names
does not appear and no unrequested column appears. -/
theorem getitem_exact_projection (df : VDataFrame) (cols : List ColName)
    (hne : cols ≠ [])
    (hres : ∀ k ∈ cols, (findOwner df.partitions k).isSome) :
    ∃ r, df.getitem cols = .ok r ∧
      (∀ p, (∃ t, (p, t) ∈ r.partitions) ↔
        ∃ k ∈ cols, findOwner df.partitions k = some p) ∧
      (∀ p t, (p, t) ∈ r.partitions →
        t.columns = cols.filter (fun k => decide (findOwner df.partitions k = some p))) := by
  obtain ⟨res, hloop⟩ := colIndexLoop_ok_of_found df.partitions cols [] hres
  have hinz : ¬ cols.isEmpty := by simpa [List.isEmpty_iff] using hne
  have hci : df._col_index cols = .ok res := by
    unfold VDataFrame._col_index
    rw [if_neg hinz]
    exact hloop
  have hnd := colIndexLoop_keys_nodup df.partitions cols [] res (by simp) hloop
  refine ⟨⟨res.map (fun pk => (pk.1, (df.tableOf pk.1).select pk.2)), true⟩, ?_, ?_, ?_⟩
  · unfold VDataFrame.getitem
    rw [hci]
    rfl
  · intro p
    have hfa := colIndexLoop_ok_assocFind df.partitions cols [] res hloop p
    rw [assocFind_nil] at hfa
    constructor
    · rintro ⟨t, ht⟩
      obtain ⟨pk, hpk_mem, hpk_eq⟩ := List.mem_map.mp ht
      rw [Prod.mk.injEq] at hpk_eq
      have hsome : assocFind res p = some pk.2 := by
        rw [← hpk_eq.1]
        exact assocFind_mem_nodup hnd (by simpa using hpk_mem)
      rw [hfa] at hsome
      cases hfil : cols.filter (fun k => decide (findOwner df.partitions k = some p)) with
      | nil =>
        rw [hfil] at hsome
        cases hsome
      | cons a as =>
        have ha : a ∈ cols.filter (fun k => decide (findOwner df.partitions k = some p)) := by
          rw [hfil]
          exact List.mem_cons_self a as
        have hpa := (List.mem_filter.mp ha).2
        exact ⟨a, List.mem_of_mem_filter ha, of_decide_eq_true hpa⟩
    · rintro ⟨k, hk, howner⟩
      have hkf : k ∈ cols.filter (fun k => decide (findOwner df.partitions k = some p)) :=
        List.mem_filter.mpr ⟨hk, by simp [howner]⟩
      have hsome : assocFind res p =
          some (cols.filter (fun k => decide (findOwner df.partitions k = some p))) := by
        rw [hfa]
        cases hfil : cols.filter (fun k => decide (findOwner df.partitions k = some p)) with
        | nil =>
          rw [hfil] at hkf
          cases hkf
        | cons a as =>
          simp [mergeOpt_cons]
      refine ⟨(df.tableOf p).select
        (cols.filter (fun k => decide (findOwner df.partitions k = some p))), ?_⟩
      exact List.mem_map.mpr ⟨(p, _), assocFind_some_mem hsome, rfl⟩
  · intro p t ht
    have hfa := colIndexLoop_ok_assocFind df.partitions cols [] res hloop p
    rw [assocFind_nil] at hfa
    obtain ⟨pk, hpk_mem, hpk_eq⟩ := List.mem_map.mp ht
    rw [Prod.mk.injEq] at hpk_eq
    have hsome : assocFind res p = some pk.2 := by
      rw [← hpk_eq.1]
      exact assocFind_mem_nodup hnd (by simpa using hpk_mem)
    rw [hfa] at hsome
    cases hfil : cols.filter (fun k => decide (findOwner df.partitions k = some p)) with
    | nil =>
      rw [hfil] at hsome
      cases hsome
    | cons a as =>
      rw [hfil, mergeOpt_cons] at hsome
      have hks : pk.2 = a :: as := (Option.some.inj hsome).symm.trans (by simp)
      rw [← hpk_eq.2, Table.columns_select, hks]

/-- Witness for C1: selecting [z, x] from the sample dataframe resolves both
names and projects exactly the owned subsets. -/
theorem getitem_exact_projection_witness :
    (["z", "x"] ≠ ([] : List ColName)) ∧
    (∀ k ∈ (["z", "x"] : List ColName), (findOwner dfAB.partitions k).isSome) ∧
    (∃ r, dfAB.getitem ["z", "x"] = .ok r ∧
      (∀ p, (∃ t, (p, t) ∈ r.partitions) ↔
        ∃ k ∈ (["z", "x"] : List ColName), findOwner dfAB.partitions k = some p) ∧
      (∀ p t, (p, t) ∈ r.partitions →
        t.columns =
          (["z", "x"] : List ColName).filter
            (fun k => decide (findOwner dfAB.partitions k = some p)))) :=
  ⟨by decide, by decide, getitem_exact_projection dfAB ["z", "x"] (by decide) (by decide)⟩

/-- C5: a request containing a name owned by no partition makes `_col_index`
fail with a not-found error identifying a missing name, and on success every
resolved name is attributed to the first partition in iteration order whose
table declares it (never a wrong owner). -/
theorem col_index_not_found_and_first_owner (df : VDataFrame) (cols : List ColName)
    (hne : cols ≠ []) :
    ((∃ k ∈ cols, findOwner df.partitions k = none) →
      ∃ k ∈ cols, findOwner df.partitions k = none ∧
        df._col_index cols = .error (.notFound ("Item " ++ k ++ " does not exist."))) ∧
    (∀ res, df._col_index cols = .ok res →
      ∀ p ks, (p, ks) ∈ res → ∀ k ∈ ks,
        ∃ l₁ t l₂, df.partitions = l₁ ++ (p, t) :: l₂ ∧ t.hasCol k = true ∧
          ∀ e ∈ l₁, e.2.hasCol k = false) := by
  have hinz : ¬ cols.isEmpty := by simpa [List.isEmpty_iff] using hne
  constructor
  · intro hex
    obtain ⟨k, hk, hko, hloop⟩ := colIndexLoop_error_of_missing df.partitions cols [] hex
    refine ⟨k, hk, hko, ?_⟩
    unfold VDataFrame._col_index
    rw [if_neg hinz]
    exact hloop
  · intro res hres p ks hmem k hk
    have hloop : colIndexLoop df.partitions cols [] = .ok res := by
      unfold VDataFrame._col_index at hres
      rw [if_neg hinz] at hres
      exact hres
    have hnd := colIndexLoop_keys_nodup df.partitions cols [] res (by simp) hloop
    have hfa := colIndexLoop_ok_assocFind df.partitions cols [] res hloop p
    rw [assocFind_nil] at hfa
    have hsome : assocFind res p = some ks := assocFind_mem_nodup hnd hmem
    rw [hfa] at hsome
    have hks : cols.filter (fun k => decide (findOwner df.partitions k = some p)) = ks :=
      mergeOpt_none_eq_some hsome
    have hkfil : k ∈ cols.filter (fun k => decide (findOwner df.partitions k = some p)) := by
      rw [hks]
      exact hk
    have howner : findOwner df.partitions k = some p :=
      of_decide_eq_true (List.mem_filter.mp hkfil).2
    exact (findOwner_eq_some_iff df.partitions k p).mp howner

/-- Witness for C5 at the request [z, nope] on the sample dataframe: nope is
owned by no partition. -/
theorem col_index_not_found_and_first_owner_witness :
    (["z", "nope"] ≠ ([] : List ColName)) ∧
    (((∃ k ∈ (["z", "nope"] : List ColName), findOwner dfAB.partitions k = none) →
      ∃ k ∈ (["z", "nope"] : List ColName), findOwner dfAB.partitions k = none ∧
        dfAB._col_index ["z", "nope"] =
          .error (.notFound ("Item " ++ k ++ " does not exist."))) ∧
    (∀ res, dfAB._col_index ["z", "nope"] = .ok res →
      ∀ p ks, (p, ks) ∈ res → ∀ k ∈ ks,
        ∃ l₁ t l₂, dfAB.partitions = l₁ ++ (p, t) :: l₂ ∧ t.hasCol k = true ∧
          ∀ e ∈ l₁, e.2.hasCol k = false)) :=
  ⟨by decide, col_index_not_found_and_first_owner dfAB ["z", "nope"] (by decide)⟩

/-- The reveal-aggregated sum coincides, as an ordered series, with the sum
of the joined unpartitioned table (map distributes over the concatenation of
the partitions' column lists). -/
theorem sum_eq_unpartitionedSum (df : VDataFrame) : df.sum = df.unpartitionedSum := by
  simp [VDataFrame.sum, VDataFrame.concatRevealApply, VDataFrame.revealBatch, reveal,
    VDataFrame.unpartitionedSum, VDataFrame.joined, Table.sumRed,
    List.map_map, Function.comp_def, List.map_flatten]

/-- C4: on a dataframe whose partitions hold pairwise-disjoint column sets
over the same rows, the row-axis sum gives, for every column name, the same
value the reduction would give on the single joined unpartitioned table —
partitioning does not change the numeric result. -/
theorem sum_refines_unpartitioned (df : VDataFrame)
    (hdisj : df.partitions.Pairwise (fun a b => ∀ c ∈ a.2.columns, c ∉ b.2.columns))
    (hrows : ∀ pt1 ∈ df.partitions, ∀ pt2 ∈ df.partitions, pt1.2.nrows = pt2.2.nrows) :
    ∀ c, assocFind df.sum c = assocFind df.unpartitionedSum c := by
  intro c
  rw [sum_eq_unpartitionedSum]

/-- Witness for C4 at the sample dataframe: disjoint columns, equal row
counts, and per-column agreement of the partitioned and joined sums. -/
theorem sum_refines_unpartitioned_witness :
    dfAB.partitions.Pairwise (fun a b => ∀ c ∈ a.2.columns, c ∉ b.2.columns) ∧
    (∀ pt1 ∈ dfAB.partitions, ∀ pt2 ∈ dfAB.partitions, pt1.2.nrows = pt2.2.nrows) ∧
    ∀ c, assocFind dfAB.sum c = assocFind dfAB.unpartitionedSum c :=
  ⟨by decide, by decide, sum_refines_unpartitioned dfAB (by decide) (by decide)⟩

/-- C6: assigning a multi-party VDataFrame value whose parties are all
partitions of the target, under a key that does not yet resolve, does not
fail with not-found: `__setitem__` catches the resolver's error and inserts
each party's new columns into that same party's table, leaving the other
parties' tables, the party list and the aligned flag unchanged. -/
theorem setitem_vdf_new_column_fallback (df value : VDataFrame) (keys : List ColName)
    (hne : keys ≠ [])
    (hsub : ∀ pt ∈ value.partitions, df.hasParty pt.1 = true)
    (hnew : ∃ k ∈ keys, findOwner df.partitions k = none)
    (hnd : (value.partitions.map Prod.fst).Nodup) :
    ∃ r, df.setitem keys (.vdf value) = .ok r ∧
      (∀ pt ∈ value.partitions,
        r.tableOf? pt.1 = (df.tableOf? pt.1).map (fun t => t.assign pt.2.columns pt.2)) ∧
      (∀ p, p ∉ value.partitions.map Prod.fst → r.tableOf? p = df.tableOf? p) ∧
      r.partitions.map Prod.fst = df.partitions.map Prod.fst ∧
      r.aligned = df.aligned := by
  have hinz : ¬ keys.isEmpty := by simpa [List.isEmpty_iff] using hne
  have hall : value.partitions.all (fun pt => df.hasParty pt.1) = true :=
    List.all_eq_true.mpr hsub
  obtain ⟨k, hk, hko, hloop⟩ := colIndexLoop_error_of_missing df.partitions keys [] hnew
  have hci : df._col_index keys = .error (.notFound ("Item " ++ k ++ " does not exist.")) := by
    unfold VDataFrame._col_index
    rw [if_neg hinz]
    exact hloop
  refine ⟨value.partitions.foldl
      (fun acc pt => acc.updateParty pt.1 (fun t => t.assign pt.2.columns pt.2)) df,
    ?_, ?_, ?_, ?_, ?_⟩
  · simp [VDataFrame.setitem, hall, hci]
  · intro pt hpt
    exact foldl_updateParty_tableOf_mem Prod.fst
      (fun pt t => t.assign pt.2.columns pt.2) value.partitions df pt hpt hnd
  · intro p hp
    exact foldl_updateParty_tableOf_not_mem Prod.fst
      (fun pt t => t.assign pt.2.columns pt.2) value.partitions df p
      (fun s hs he => hp (he ▸ List.mem_map.mpr ⟨s, hs, rfl⟩))
  · exact foldl_updateParty_fst _ _ _ _
  · exact foldl_updateParty_aligned _ _ _ _

/-- Witness for C6: assigning the fresh column w (owned by alice inside the
value) to the sample dataframe succeeds through the fallback insertion. -/
theorem setitem_vdf_new_column_fallback_witness :
    (["w"] ≠ ([] : List ColName)) ∧
    (∀ pt ∈ dfNewW.partitions, dfAB.hasParty pt.1 = true) ∧
    (∃ k ∈ (["w"] : List ColName), findOwner dfAB.partitions k = none) ∧
    (dfNewW.partitions.map Prod.fst).Nodup ∧
    (∃ r, dfAB.setitem ["w"] (.vdf dfNewW) = .ok r ∧
      (∀ pt ∈ dfNewW.partitions,
        r.tableOf? pt.1 = (dfAB.tableOf? pt.1).map (fun t => t.assign pt.2.columns pt.2)) ∧
      (∀ p, p ∉ dfNewW.partitions.map Prod.fst → r.tableOf? p = dfAB.tableOf? p) ∧
      r.partitions.map Prod.fst = dfAB.partitions.map Prod.fst ∧
      r.aligned = dfAB.aligned) :=
  ⟨by decide, by decide, by decide, by decide,
    setitem_vdf_new_column_fallback dfAB dfNewW ["w"] (by decide) (by decide)
      (by decide) (by decide)⟩

/-- C7: an operation addressing a party that is not a partition fails before
acting — `to_csv` with an unknown party in the uri mapping errors with
`InvalidArgumentError` and dispatches no write, and `__setitem__` from a
VDataFrame whose party set is not a subset of the target's fails its
subset assertion before any assignment. -/
theorem unknown_party_invalid_argument (df : VDataFrame)
    (fileuris : List (Party × String)) (keys : List ColName) (value : VDataFrame)
    (hcsv : ∃ du ∈ fileuris, df.hasParty du.1 = false)
    (hset : ∃ pt ∈ value.partitions, df.hasParty pt.1 = false) :
    (∃ p, df.hasParty p = false ∧
      df.to_csv fileuris =
        .error (.invalidArgument ("PYU " ++ p ++ " is not in this dataframe."))) ∧
    df.setitem keys (.vdf value) =
      .error (.assertion "Partitions to assgin is not same with this dataframe partitions.") := by
  constructor
  · obtain ⟨du, hdu, hfalse⟩ := hcsv
    have hsome : (fileuris.find? (fun du => !df.hasParty du.1)).isSome := by
      rw [List.find?_isSome]
      exact ⟨du, hdu, by simp [hfalse]⟩
    obtain ⟨du1, hdu1⟩ := Option.isSome_iff_exists.mp hsome
    have hp := List.find?_some hdu1
    refine ⟨du1.1, by simpa using hp, ?_⟩
    unfold VDataFrame.to_csv
    rw [hdu1]
  · have hall : value.partitions.all (fun pt => df.hasParty pt.1) = false := by
      obtain ⟨pt, hpt, hf⟩ := hset
      cases hb : value.partitions.all (fun pt => df.hasParty pt.1) with
      | false => rfl
      | true =>
        have := List.all_eq_true.mp hb pt hpt
        rw [hf] at this
        cases this
    simp [VDataFrame.setitem, hall]

/-- Witness for C7: exporting to a uri mapping addressing carol, and
assigning from a dataframe owned by carol, both fail against the sample
dataframe whose parties are alice and bob. -/
theorem unknown_party_invalid_argument_witness :
    (∃ du ∈ ([("carol", "out.csv")] : List (Party × String)),
      dfAB.hasParty du.1 = false) ∧
    (∃ pt ∈ dfCarolValue.partitions, dfAB.hasParty pt.1 = false) ∧
    ((∃ p, dfAB.hasParty p = false ∧
      dfAB.to_csv [("carol", "out.csv")] =
        .error (.invalidArgument ("PYU " ++ p ++ " is not in this dataframe."))) ∧
    dfAB.setitem ["x"] (.vdf dfCarolValue) =
      .error (.assertion "Partitions to assgin is not same with this dataframe partitions.")) :=
  ⟨by decide, by decide,
    unknown_party_invalid_argument dfAB [("carol", "out.csv")] ["x"] dfCarolValue
      (by decide) (by decide)⟩
